import Mathlib

/-!
Verification of the clause-segmentation core of `app/extract_clauses.py` and of
the alternate extractor in `app/my_utils.py`, shallowly embedded in Lean.

Python strings are modelled as `List Char`.  The regular expressions of the
source are modelled by executable boolean matchers with the same match
semantics (existence of a match, anchored at the start where the source uses
`re.match`).  Python's Unicode notion of whitespace (the `\s` class of the
`re` module on `str`, and `str.strip()` / `str.split()`) is modelled by the
explicit character list `pySpaceChars`; character classes such as `\w` are
modelled on the ASCII range, which covers every character the claims exercise.

The tokenizer (`transformers.AutoTokenizer`, a module-level global in the
source) is treated as an injected capability, following the spec's contract
`segment(raw_text, tokenize, max_tokens)`: a pair of functions
`tok : Str → List Str` (`tokenizer.tokenize`) and `detok : List Str → Str`
(`tokenizer.convert_tokens_to_string`), with the token budget `m : Nat`
(512 in the source) passed as a parameter.
-/

abbrev Str := List Char

/-- The characters matched by Python's `\s` on `str` (ASCII whitespace plus
the Unicode whitespace characters, including the non-breaking space
` `).  The ASCII space is listed first so that membership tests on
ordinary text are cheap. -/
def pySpaceChars : List Char :=
  [' ', '\t', '\n', '\r', '\x0b', '\x0c',
   '\x1c', '\x1d', '\x1e', '\x1f', '\u0085', ' ',
   ' ', ' ', ' ', ' ', ' ', ' ', ' ',
   ' ', ' ', ' ', ' ', ' ', ' ', ' ',
   ' ', ' ', '　']

def isPySpace (c : Char) : Bool := pySpaceChars.contains c

/-- Python `str.strip()`: remove leading and trailing whitespace. -/
def pyStrip (cs : Str) : Str :=
  ((cs.dropWhile isPySpace).reverse.dropWhile isPySpace).reverse

/-- `str.replace('\xa0', ' ')`. -/
def replaceNbsp (cs : Str) : Str :=
  cs.map (fun c => if c = ' ' then ' ' else c)

/-- Scanner for `re.sub(r'\s+', ' ', text)`: every maximal run of whitespace
characters is replaced by a single ASCII space.  `inRun` records whether the
previous character belonged to a whitespace run (for which the single space
has already been emitted). -/
def collapseAux : Bool → Str → Str
  | _, [] => []
  | inRun, c :: rest =>
    if isPySpace c then
      if inRun then collapseAux true rest else ' ' :: collapseAux true rest
    else c :: collapseAux false rest

/-- The effect of `re.sub(r'\s+', ' ', text)`. -/
def collapseWS (s : Str) : Str := collapseAux false s

/-- `clean_text` from `app/extract_clauses.py` (line 43):
`re.sub(r'\s+', ' ', text).replace('\xa0', ' ').strip()`. -/
def clean_text (s : Str) : Str := pyStrip (replaceNbsp (collapseWS s))

/-- The preprocessing at the top of `split_into_clauses` (line 47):
`text.replace('\r', '').replace('\xa0', ' ').strip()`. -/
def preprocess (text : Str) : Str :=
  pyStrip (replaceNbsp (text.filter (fun c => !(c = '\r'))))

/-- Scanner for `re.split(r'(?<=[.!?]) +', text)`.  `cur` is the current
segment (reversed); `pf` records whether the previously consumed character
was one of `.`, `!`, `?` (the lookbehind); `skip` records that the scanner
is inside a separator (a maximal run of ASCII spaces preceded by such a
character).  The separator spaces are consumed and the segment (including
the punctuation) is emitted when the separator starts. -/
def sentAux : Str → Str → Bool → Bool → List Str
  | [], cur, _, _ => [cur.reverse]
  | c :: rest, cur, pf, skip =>
    if skip then
      if c = ' ' then sentAux rest cur pf true
      else sentAux rest [c] (c = '.' || c = '!' || c = '?') false
    else if pf && (c = ' ') then
      cur.reverse :: sentAux rest [] false true
    else
      sentAux rest (c :: cur) (c = '.' || c = '!' || c = '?') false

/-- `re.split(r'(?<=[.!?]) +', text)` (line 50). -/
def sentSplit (cs : Str) : List Str := sentAux cs [] false false

/-- The greedy block-accumulation loop of `split_into_clauses`
(lines 51-62): `buffer` grows by one sentence at a time while the tokenized
candidate stays within the budget `m`; otherwise the buffer is flushed
(stripped) as a block and restarted from the current sentence.  A final
non-empty buffer is flushed after the loop. -/
def accumBlocks (tok : Str → List Str) (m : Nat) :
    List Str → Str → List Str → List Str
  | [], buffer, blocks =>
    if buffer = [] then blocks else blocks ++ [pyStrip buffer]
  | s :: rest, buffer, blocks =>
    let candidate := if buffer = [] then s else buffer ++ ' ' :: s
    if (tok candidate).length ≤ m then
      accumBlocks tok m rest candidate blocks
    else
      accumBlocks tok m rest s
        (if buffer = [] then blocks else blocks ++ [pyStrip buffer])

def blocksOf (tok : Str → List Str) (m : Nat) (text : Str) : List Str :=
  accumBlocks tok m (sentSplit (preprocess text)) [] []

def isDigitDot (c : Char) : Bool := c.isDigit || c = '.'

/-- The `[\w ]` class of the header pattern (ASCII model of `\w`). -/
def isWordSp (c : Char) : Bool := c.isAlphanum || c = '_' || c = ' '

/-- First alternative of the header pattern, `Section\s+\d+`: the literal
`Section`, then at least one whitespace character, then a digit (since no
digit is whitespace, the greedy `\s+` / backtracking semantics reduce to
"skip the whitespace run, then require a digit"). -/
def headerB1 (cs : Str) : Bool :=
  "Section".data.isPrefixOf cs &&
    (match cs.drop 7 with
     | [] => false
     | d :: _ =>
       isPySpace d &&
         (match (cs.drop 7).dropWhile isPySpace with
          | [] => false
          | e :: _ => e.isDigit))

/-- `[\w ]{3,}` at the start: at least three characters, the first three in
the class. -/
def wordRun3 (cs : Str) : Bool :=
  decide (3 ≤ cs.length) && (cs.take 3).all isWordSp

/-- `\s+[\w ]{3,}` at the start: some `j ≥ 1` whitespace characters followed
by a `wordRun3` (the bounded search over `j` realizes backtracking). -/
def hasSpThen3Word (cs : Str) : Bool :=
  (List.range cs.length).any (fun j =>
    (cs.take (j + 1)).all isPySpace && wordRun3 (cs.drop (j + 1)))

/-- Second alternative of the header pattern, `[0-9.]{1,5}\s+[\w ]{3,}`. -/
def headerB2 (cs : Str) : Bool :=
  [1, 2, 3, 4, 5].any (fun k =>
    decide (k ≤ cs.length) && (cs.take k).all isDigitDot &&
      hasSpThen3Word (cs.drop k))

/-- `header_pattern.match(...)` with
`header_pattern = re.compile(r'^(Section\s+\d+|[0-9.]{1,5}\s+[\w ]{3,})')`
(line 65): anchored match at the start. -/
def headerMatch (cs : Str) : Bool := headerB1 cs || headerB2 cs

/-- The header-folding loop (lines 66-75): a block matching the header
pattern becomes the pending header and is not emitted; any other block is
emitted, prefixed (newline-joined) by the pending header when one is set. -/
def headerFold : List Str → Str → List Str → List Str
  | [], _, out => out
  | b :: rest, hdr, out =>
    if headerMatch (pyStrip b) then headerFold rest (pyStrip b) out
    else
      headerFold rest []
        (out ++ [if hdr = [] then pyStrip b else hdr ++ '\n' :: pyStrip b])

def combinedOf (tok : Str → List Str) (m : Nat) (text : Str) : List Str :=
  headerFold (blocksOf tok m text) [] []

def lowerStr (cs : Str) : Str := cs.map Char.toLower

/-- Python `str.isupper()` (ASCII model): at least one letter and no
lowercase letter. -/
def pyIsUpper (cs : Str) : Bool :=
  cs.any Char.isAlpha && cs.all (fun c => !c.isLower)

/-- Scanner for Python `str.split()`; `cur` is the current word (reversed,
empty when the scanner is between words). -/
def pyWordsAux : Str → Str → List Str
  | [], [] => []
  | [], cur => [cur.reverse]
  | c :: rest, cur =>
    if isPySpace c then
      match cur with
      | [] => pyWordsAux rest []
      | _ :: _ => cur.reverse :: pyWordsAux rest []
    else pyWordsAux rest (c :: cur)

/-- Python `str.split()`: split on whitespace runs, dropping empty pieces. -/
def pyWords (cs : Str) : List Str := pyWordsAux cs []

/-- `re.match(r'^page\s*\d+', block_clean.lower())` (line 87): the literal
`page`, then optional whitespace, then a digit. -/
def pageMatch (cs : Str) : Bool :=
  "page".data.isPrefixOf cs &&
    (match (cs.drop 4).dropWhile isPySpace with
     | [] => false
     | d :: _ => d.isDigit)

/-- `re.match(r'^\d{1,3}$', block_clean)` (line 89). -/
def smallNum (cs : Str) : Bool :=
  decide (1 ≤ cs.length) && decide (cs.length ≤ 3) && cs.all Char.isDigit

def tocStr : Str := "table of contents".data

/-- Python's substring containment `pat in s`: `pat` occurs (contiguously)
somewhere in `s`. -/
def containsSub (pat : Str) : Str → Bool
  | [] => pat.isPrefixOf []
  | c :: rest => pat.isPrefixOf (c :: rest) || containsSub pat rest

/-- The noise filter of lines 83-92, applied to the cleaned block text:
too short, an uppercase heading of fewer than five words, a page-number
artifact, a bare 1-3 digit number, or a table-of-contents line. -/
def isNoiseClean (bc : Str) : Bool :=
  decide (bc.length < 25) ||
  (pyIsUpper bc && decide ((pyWords bc).length < 5)) ||
  pageMatch (lowerStr bc) ||
  smallNum bc ||
  containsSub tocStr (lowerStr bc)

def isNoise (b : Str) : Bool := isNoiseClean (clean_text b)

structure ClauseRec where
  clause : Str
  id : Str
deriving DecidableEq

/-- `f"clause_{n}"`. -/
def clauseId (n : Nat) : Str := "clause_".data ++ (Nat.repr n).data

/-- Fuel-indexed form of the force-split loop (one unit of fuel per emitted
chunk; since the step `m` is positive in the source — the literal 512 — a
fuel of `tokens.length` is never exhausted). -/
def chunkEmitF (detok : List Str → Str) (m : Nat) :
    Nat → List Str → List ClauseRec → List ClauseRec
  | _, [], acc => acc
  | 0, _ :: _, acc => acc
  | fuel + 1, t :: ts, acc =>
    chunkEmitF detok m fuel ((t :: ts).drop m)
      (acc ++ [⟨clean_text (detok ((t :: ts).take m)),
               clauseId (acc.length + 1)⟩])

/-- The force-split loop `for i in range(0, len(tokens), 512)` of
lines 97-102: consecutive slices of at most `m` tokens are detokenized,
cleaned and appended, each with the next sequential id. -/
def chunkEmit (detok : List Str → Str) (m : Nat) (ts : List Str)
    (acc : List ClauseRec) : List ClauseRec :=
  chunkEmitF detok m ts.length ts acc

/-- The filtering-and-emission loop of lines 78-107: each surviving block is
cleaned; noise is skipped; a block within the token budget is emitted as one
record, an oversized block is force-split by `chunkEmit`. -/
def finalLoop (tok : Str → List Str) (detok : List Str → Str) (m : Nat) :
    List Str → List ClauseRec → List ClauseRec
  | [], acc => acc
  | b :: rest, acc =>
    let bc := clean_text b
    if isNoiseClean bc then finalLoop tok detok m rest acc
    else
      let toks := tok bc
      if m < toks.length then
        finalLoop tok detok m rest (chunkEmit detok m toks acc)
      else
        finalLoop tok detok m rest (acc ++ [⟨bc, clauseId (acc.length + 1)⟩])

/-- `split_into_clauses` from `app/extract_clauses.py` (lines 46-109), with
the tokenization oracle and the token budget as parameters (the source uses
the module-level MiniLM tokenizer and the literal 512). -/
def split_into_clauses (tok : Str → List Str) (detok : List Str → Str)
    (m : Nat) (text : Str) : List ClauseRec :=
  finalLoop tok detok m (combinedOf tok m text) []

/-! ### The alternate extractor of `app/my_utils.py` -/

/-- Python `str.split("\n")`: split at every newline, keeping empty pieces. -/
def splitOnNl : Str → List Str
  | [] => [[]]
  | c :: rest =>
    if c = '\n' then [] :: splitOnNl rest
    else
      match splitOnNl rest with
      | [] => [[c]]
      | s :: ss => (c :: s) :: ss

/-- The pure core of `my_utils.extract_clauses_from_url` (lines 27-30): given
the text recovered from the document, the returned clause list is
`[line.strip() for line in cleaned.split("\n") if len(line.strip()) > 50]` —
bare strings, no ids.  (The network fetch and PDF decoding that produce
`cleaned` are external collaborators.) -/
def extract_clauses_from_text (cleaned : Str) : List Str :=
  (splitOnNl cleaned).filterMap (fun l =>
    if 50 < (pyStrip l).length then some (pyStrip l) else none)

/-! ### Concrete oracles used as witnesses -/

/-- A character-level tokenization oracle: each character is one token. -/
def charTok (s : Str) : List Str := s.map (fun c => [c])

def charDetok (ts : List Str) : Str := ts.flatten

/-! ### Shape of normalized text -/

/-- Two adjacent characters are never both ASCII spaces. -/
def spaceRel (a b : Char) : Prop := ¬(a = ' ' ∧ b = ' ')

/-- The output shape of the normalizer: every whitespace character is the
ASCII space, no two adjacent spaces (every maximal whitespace run of the
input was collapsed to a single space), and no leading or trailing
whitespace. -/
def isNormalized (cs : Str) : Prop :=
  (∀ c ∈ cs, isPySpace c = true → c = ' ') ∧
  List.Chain' spaceRel cs ∧
  cs.head? ≠ some ' ' ∧ cs.getLast? ≠ some ' '

lemma dropWhile_head_not {p : α → Bool} {l : List α} {c : α}
    (h : (l.dropWhile p).head? = some c) : p c = false := by
  have := List.head?_dropWhile_not p l
  rw [h] at this
  exact this

lemma dropWhile_eq_self {p : α → Bool} {l : List α}
    (h : ∀ c, l.head? = some c → p c = false) : l.dropWhile p = l := by
  cases l with
  | nil => rfl
  | cons a t => rw [List.dropWhile_cons, h a rfl]; simp

lemma head?_append_left {l t : List α} (h : l ≠ []) :
    (l ++ t).head? = l.head? := by
  cases l with
  | nil => exact absurd rfl h
  | cons a s => rfl

lemma map_id_of {f : α → α} : ∀ l : List α, (∀ a ∈ l, f a = a) → l.map f = l
  | [], _ => rfl
  | a :: t, h => by
    rw [List.map_cons, h a (by simp), map_id_of t (fun b hb => h b (by simp [hb]))]

lemma collapseAux_mem :
    ∀ (l : Str) (b : Bool), ∀ c ∈ collapseAux b l, c = ' ' ∨ isPySpace c = false := by
  intro l
  induction l with
  | nil => intro b c hc; simp [collapseAux] at hc
  | cons a rest ih =>
    intro b c hc
    rw [collapseAux] at hc
    by_cases hsp : isPySpace a = true
    · rw [if_pos hsp] at hc
      cases b with
      | true => exact ih true c hc
      | false =>
        simp only [Bool.false_eq_true, if_false] at hc
        rcases List.mem_cons.mp hc with hc | hc
        · left; exact hc
        · exact ih true c hc
    · rw [if_neg hsp] at hc
      rcases List.mem_cons.mp hc with hc | hc
      · right; subst hc; exact Bool.eq_false_iff.mpr hsp
      · exact ih false c hc

/-- In skipping state the scanner never emits a whitespace character first. -/
lemma collapseAux_true_head :
    ∀ (l : Str) (c : Char), (collapseAux true l).head? = some c → isPySpace c = false := by
  intro l
  induction l with
  | nil => intro c hc; simp [collapseAux] at hc
  | cons a rest ih =>
    intro c hc
    rw [collapseAux] at hc
    by_cases hsp : isPySpace a = true
    · rw [if_pos hsp, if_pos rfl] at hc
      exact ih c hc
    · rw [if_neg hsp] at hc
      simp only [List.head?_cons, Option.some.injEq] at hc
      subst hc
      exact Bool.eq_false_iff.mpr hsp

lemma collapseAux_chain :
    ∀ (l : Str) (b : Bool), List.Chain' spaceRel (collapseAux b l) := by
  intro l
  induction l with
  | nil => intro b; simp [collapseAux]
  | cons a rest ih =>
    intro b
    rw [collapseAux]
    by_cases hsp : isPySpace a = true
    · rw [if_pos hsp]
      cases b with
      | true => exact ih true
      | false =>
        simp only [Bool.false_eq_true, if_false]
        rw [List.chain'_cons']
        refine ⟨?_, ih true⟩
        intro d hd
        have hdf : isPySpace d = false := collapseAux_true_head rest d hd
        rintro ⟨_, hd2⟩
        rw [hd2] at hdf
        simp [isPySpace, pySpaceChars] at hdf
    · rw [if_neg hsp]
      rw [List.chain'_cons']
      refine ⟨?_, ih false⟩
      intro d _
      rintro ⟨ha, _⟩
      rw [ha] at hsp
      simp [isPySpace, pySpaceChars] at hsp

lemma collapseAux_length :
    ∀ (l : Str) (b : Bool), (collapseAux b l).length ≤ l.length := by
  intro l
  induction l with
  | nil => intro b; simp [collapseAux]
  | cons a rest ih =>
    intro b
    rw [collapseAux]
    by_cases hsp : isPySpace a = true
    · rw [if_pos hsp]
      cases b with
      | true => exact Nat.le_succ_of_le (ih true)
      | false =>
        simp only [if_false, List.length_cons]
        exact Nat.succ_le_succ (ih true)
    · rw [if_neg hsp]
      simp only [List.length_cons]
      exact Nat.succ_le_succ (ih false)

lemma collapseWS_mem {l : Str} : ∀ c ∈ collapseWS l, c = ' ' ∨ isPySpace c = false :=
  collapseAux_mem l false

lemma collapseWS_chain {l : Str} : List.Chain' spaceRel (collapseWS l) :=
  collapseAux_chain l false

lemma collapseWS_length {l : Str} : (collapseWS l).length ≤ l.length :=
  collapseAux_length l false

lemma replaceNbsp_of_collapse (l : Str) :
    replaceNbsp (collapseWS l) = collapseWS l := by
  apply map_id_of
  intro a ha
  rcases collapseWS_mem a ha with h | h
  · subst h; rfl
  · have hne : ¬(a = ' ') := by
      intro he; rw [he] at h; simp [isPySpace, pySpaceChars] at h
    simp [hne]

lemma pyStrip_prefix_dropWhile (cs : Str) :
    pyStrip cs <+: cs.dropWhile isPySpace := by
  unfold pyStrip
  obtain ⟨t, ht⟩ := List.dropWhile_suffix (l := (cs.dropWhile isPySpace).reverse) isPySpace
  refine ⟨t.reverse, ?_⟩
  have := congrArg List.reverse ht
  rw [List.reverse_append, List.reverse_reverse] at this
  exact this

lemma pyStrip_mem {cs : Str} {c : Char} (h : c ∈ pyStrip cs) : c ∈ cs :=
  (List.dropWhile_suffix isPySpace).subset ((pyStrip_prefix_dropWhile cs).subset h)

lemma chain'_of_prefix {R : α → α → Prop} {l l' : List α}
    (h : l <+: l') (hc : List.Chain' R l') : List.Chain' R l := by
  obtain ⟨t, rfl⟩ := h
  exact (List.chain'_append.mp hc).1

lemma chain'_of_suffix {R : α → α → Prop} {l l' : List α}
    (h : l <:+ l') (hc : List.Chain' R l') : List.Chain' R l := by
  obtain ⟨t, rfl⟩ := h
  exact (List.chain'_append.mp hc).2.1

lemma pyStrip_head_not {cs : Str} {c : Char}
    (h : (pyStrip cs).head? = some c) : isPySpace c = false := by
  obtain ⟨t, ht⟩ := pyStrip_prefix_dropWhile cs
  have hne : pyStrip cs ≠ [] := by
    intro he; rw [he] at h; exact Option.noConfusion h
  have : (cs.dropWhile isPySpace).head? = some c := by
    rw [← ht, head?_append_left hne, h]
  exact dropWhile_head_not this

lemma pyStrip_last_not {cs : Str} {c : Char}
    (h : (pyStrip cs).getLast? = some c) : isPySpace c = false := by
  unfold pyStrip at h
  rw [List.getLast?_reverse] at h
  exact dropWhile_head_not h

theorem clean_text_normalized (s : Str) : isNormalized (clean_text s) := by
  have hde : clean_text s = pyStrip (collapseWS s) := by
    unfold clean_text
    rw [replaceNbsp_of_collapse]
  refine ⟨?_, ?_, ?_, ?_⟩
  · intro c hc hsp
    rw [hde] at hc
    rcases collapseWS_mem c (pyStrip_mem hc) with h | h
    · exact h
    · rw [hsp] at h; exact Bool.noConfusion h
  · rw [hde]
    exact chain'_of_prefix (pyStrip_prefix_dropWhile _)
      (chain'_of_suffix (List.dropWhile_suffix _) collapseWS_chain)
  · rw [hde]
    intro h
    have := pyStrip_head_not h
    simp [isPySpace, pySpaceChars] at this
  · rw [hde]
    intro h
    have := pyStrip_last_not h
    simp [isPySpace, pySpaceChars] at this

/-- When the next character is not whitespace, the skipping and ordinary
states of the collapse scanner agree. -/
lemma collapseAux_eq_of_head {l : Str}
    (h : ∀ c, l.head? = some c → isPySpace c = false) :
    collapseAux true l = collapseAux false l := by
  cases l with
  | nil => rfl
  | cons a rest =>
    have ha := h a rfl
    rw [collapseAux, collapseAux, ha]
    simp

lemma collapseAux_false_eq_self :
    ∀ cs : Str, (∀ c ∈ cs, isPySpace c = true → c = ' ') →
      List.Chain' spaceRel cs → collapseAux false cs = cs := by
  intro cs
  induction cs with
  | nil => intro _ _; rfl
  | cons c rest ih =>
    intro hmem hch
    by_cases hsp : isPySpace c = true
    · have hc : c = ' ' := hmem c (by simp) hsp
      rw [collapseAux, if_pos hsp]
      simp only [Bool.false_eq_true, if_false]
      have hhead : ∀ d, rest.head? = some d → isPySpace d = false := by
        intro d hd
        have hdm : d ∈ rest := by
          cases rest with
          | nil => exact Option.noConfusion hd
          | cons e tl =>
            simp only [List.head?_cons, Option.some.injEq] at hd
            subst hd; simp
        cases hdsp : isPySpace d with
        | false => rfl
        | true =>
          have hd' : d = ' ' := hmem d (by simp [hdm]) hdsp
          have hrel : spaceRel c d := by
            cases rest with
            | nil => exact absurd hd (by simp)
            | cons e tl =>
              simp only [List.head?_cons, Option.some.injEq] at hd
              subst hd
              exact (List.chain'_cons.mp hch).1
          rw [hc, hd'] at hrel
          exact absurd ⟨rfl, rfl⟩ hrel
      rw [collapseAux_eq_of_head hhead,
        ih (fun x hx h => hmem x (by simp [hx]) h) hch.tail, hc]
    · rw [collapseAux, if_neg hsp]
      rw [ih (fun x hx h => hmem x (by simp [hx]) h) hch.tail]

lemma collapseWS_eq_self {cs : Str}
    (hmem : ∀ c ∈ cs, isPySpace c = true → c = ' ')
    (hch : List.Chain' spaceRel cs) : collapseWS cs = cs :=
  collapseAux_false_eq_self cs hmem hch

lemma mem_of_getLast? {l : List α} {c : α} (h : l.getLast? = some c) : c ∈ l := by
  rw [← List.head?_reverse] at h
  have : c ∈ l.reverse := by
    cases hr : l.reverse with
    | nil => rw [hr] at h; exact Option.noConfusion h
    | cons a t =>
      rw [hr] at h
      simp only [List.head?_cons, Option.some.injEq] at h
      subst h; simp
  exact List.mem_reverse.mp this

lemma pyStrip_eq_self {cs : Str}
    (hmem : ∀ c ∈ cs, isPySpace c = true → c = ' ')
    (hh : cs.head? ≠ some ' ') (hl : cs.getLast? ≠ some ' ') :
    pyStrip cs = cs := by
  have hnp : ∀ c, cs.head? = some c → isPySpace c = false := by
    intro c hc
    cases hsp : isPySpace c with
    | false => rfl
    | true =>
      have hcm : c ∈ cs := by
        cases cs with
        | nil => exact Option.noConfusion hc
        | cons a t =>
          simp only [List.head?_cons, Option.some.injEq] at hc
          subst hc; simp
      have := hmem c hcm hsp
      rw [this] at hc
      exact absurd hc hh
  unfold pyStrip
  rw [dropWhile_eq_self hnp]
  have hnp2 : ∀ c, cs.reverse.head? = some c → isPySpace c = false := by
    intro c hc
    rw [List.head?_reverse] at hc
    cases hsp : isPySpace c with
    | false => rfl
    | true =>
      have := hmem c (mem_of_getLast? hc) hsp
      rw [this] at hc
      exact absurd hc hl
  rw [dropWhile_eq_self hnp2, List.reverse_reverse]

lemma replaceNbsp_eq_self {cs : Str}
    (hmem : ∀ c ∈ cs, isPySpace c = true → c = ' ') : replaceNbsp cs = cs := by
  apply map_id_of
  intro a ha
  by_cases hn : a = ' '
  · have hsp : isPySpace a = true := by rw [hn]; decide
    have ha' := hmem a ha hsp
    rw [ha'] at hn
    exact absurd hn (by decide)
  · simp [hn]

lemma clean_text_of_normalized {cs : Str} (h : isNormalized cs) :
    clean_text cs = cs := by
  obtain ⟨hmem, hch, hh, hl⟩ := h
  unfold clean_text
  rw [collapseWS_eq_self hmem hch, replaceNbsp_eq_self hmem,
    pyStrip_eq_self hmem hh hl]

lemma clean_text_idem (s : Str) : clean_text (clean_text s) = clean_text s :=
  clean_text_of_normalized (clean_text_normalized s)

lemma pyStrip_length_le (cs : Str) : (pyStrip cs).length ≤ cs.length := by
  calc (pyStrip cs).length
      ≤ (cs.dropWhile isPySpace).length :=
        (pyStrip_prefix_dropWhile cs).sublist.length_le
    _ ≤ cs.length := (List.dropWhile_suffix _).sublist.length_le

lemma clean_text_length_le (s : Str) : (clean_text s).length ≤ s.length := by
  unfold clean_text
  calc (pyStrip (replaceNbsp (collapseWS s))).length
      ≤ (replaceNbsp (collapseWS s)).length := pyStrip_length_le _
    _ = (collapseWS s).length := List.length_map _ _
    _ ≤ s.length := collapseWS_length

/-! ### Oracle calibration and the character-level witness oracle -/

/-- Calibration of a tokenization oracle against the budget machinery:
re-tokenizing the cleaned detokenization of any `j`-token slice of a
tokenizer output yields at most `j` tokens.  This is the property of
`tokenizer.convert_tokens_to_string` the source relies on when it
force-splits an oversized block into `max_tokens`-sized token slices. -/
def sliceBound (tok : Str → List Str) (detok : List Str → Str) : Prop :=
  ∀ (s : Str) (i j : Nat),
    (tok (clean_text (detok (((tok s).drop i).take j)))).length ≤ j

lemma flatten_map_singleton : ∀ l : Str, (l.map (fun c => [c])).flatten = l
  | [] => rfl
  | c :: rest => by
    rw [List.map_cons, List.flatten_cons, flatten_map_singleton rest]
    rfl

lemma charDetok_charTok (s : Str) : charDetok (charTok s) = s :=
  flatten_map_singleton s

lemma charDetok_append (a b : List Str) :
    charDetok (a ++ b) = charDetok a ++ charDetok b := by
  unfold charDetok
  rw [List.flatten_append]

lemma charTok_sliceBound : sliceBound charTok charDetok := by
  intro s i j
  unfold charTok charDetok
  rw [← List.map_drop, ← List.map_take, flatten_map_singleton, List.length_map]
  calc (clean_text ((s.drop i).take j)).length
      ≤ ((s.drop i).take j).length := clean_text_length_le _
    _ ≤ j := List.length_take_le _ _

/-! ### Invariants of the emission loops -/

/-- The token-budget predicate of the spec: the normalized clause text
re-tokenizes to at most `m` tokens. -/
def budgetOk (tok : Str → List Str) (m : Nat) (r : ClauseRec) : Bool :=
  decide ((tok (clean_text r.clause)).length ≤ m)

/-- The minimum-length predicate of the spec. -/
def lenOk (r : ClauseRec) : Bool := decide (25 ≤ r.clause.length)

/-- The cleaned block tokenizes within the budget (no force-split needed). -/
def fitsOk (tok : Str → List Str) (m : Nat) (b : Str) : Bool :=
  decide ((tok (clean_text b)).length ≤ m)

lemma chunkEmitF_nil (detok : List Str → Str) (m fuel : Nat)
    (acc : List ClauseRec) : chunkEmitF detok m fuel [] acc = acc := by
  cases fuel <;> rfl

lemma chunkEmitF_budget {tok : Str → List Str} {detok : List Str → Str}
    (H : sliceBound tok detok) (m : Nat) (s₀ : Str) :
    ∀ (fuel : Nat) (ts : List Str) (n : Nat) (acc : List ClauseRec),
      ts = (tok s₀).drop n → acc.all (budgetOk tok m) = true →
      (chunkEmitF detok m fuel ts acc).all (budgetOk tok m) = true := by
  intro fuel
  induction fuel with
  | zero =>
    intro ts n acc _ hacc
    cases ts with
    | nil => rw [chunkEmitF_nil]; exact hacc
    | cons t tl => exact hacc
  | succ f ih =>
    intro ts n acc hts hacc
    cases ts with
    | nil => rw [chunkEmitF_nil]; exact hacc
    | cons t tl =>
      simp only [chunkEmitF]
      apply ih ((t :: tl).drop m) (n + m)
      · rw [hts, List.drop_drop]
      · rw [List.all_append, hacc, Bool.true_and]
        simp only [List.all_cons, List.all_nil, Bool.and_true]
        apply decide_eq_true
        show (tok (clean_text (clean_text (detok ((t :: tl).take m))))).length ≤ m
        rw [clean_text_idem, hts]
        exact H s₀ n m

lemma chunkEmit_budget {tok : Str → List Str} {detok : List Str → Str}
    (H : sliceBound tok detok) (m : Nat) (s₀ : Str) (acc : List ClauseRec)
    (hacc : acc.all (budgetOk tok m) = true) :
    (chunkEmit detok m (tok s₀) acc).all (budgetOk tok m) = true :=
  chunkEmitF_budget H m s₀ _ _ 0 acc (by rw [List.drop_zero]) hacc

lemma finalLoop_nil (tok : Str → List Str) (detok : List Str → Str) (m : Nat)
    (acc : List ClauseRec) : finalLoop tok detok m [] acc = acc := rfl

lemma finalLoop_cons_noise {tok : Str → List Str} {detok : List Str → Str}
    {m : Nat} {b : Str} {rest : List Str} {acc : List ClauseRec}
    (h : isNoiseClean (clean_text b) = true) :
    finalLoop tok detok m (b :: rest) acc = finalLoop tok detok m rest acc := by
  simp [finalLoop, h]

lemma finalLoop_cons_big {tok : Str → List Str} {detok : List Str → Str}
    {m : Nat} {b : Str} {rest : List Str} {acc : List ClauseRec}
    (h1 : isNoiseClean (clean_text b) = false)
    (h2 : m < (tok (clean_text b)).length) :
    finalLoop tok detok m (b :: rest) acc =
      finalLoop tok detok m rest (chunkEmit detok m (tok (clean_text b)) acc) := by
  simp [finalLoop, h1, h2]

lemma finalLoop_cons_fit {tok : Str → List Str} {detok : List Str → Str}
    {m : Nat} {b : Str} {rest : List Str} {acc : List ClauseRec}
    (h1 : isNoiseClean (clean_text b) = false)
    (h2 : ¬ m < (tok (clean_text b)).length) :
    finalLoop tok detok m (b :: rest) acc =
      finalLoop tok detok m rest
        (acc ++ [⟨clean_text b, clauseId (acc.length + 1)⟩]) := by
  simp [finalLoop, h1, h2]

lemma finalLoop_budget {tok : Str → List Str} {detok : List Str → Str}
    (H : sliceBound tok detok) (m : Nat) :
    ∀ (blocks : List Str) (acc : List ClauseRec),
      acc.all (budgetOk tok m) = true →
      (finalLoop tok detok m blocks acc).all (budgetOk tok m) = true := by
  intro blocks
  induction blocks with
  | nil => intro acc hacc; rw [finalLoop_nil]; exact hacc
  | cons b rest ih =>
    intro acc hacc
    by_cases hn : isNoiseClean (clean_text b) = true
    · rw [finalLoop_cons_noise hn]; exact ih acc hacc
    · have hn' := Bool.eq_false_iff.mpr hn
      by_cases hbig : m < (tok (clean_text b)).length
      · rw [finalLoop_cons_big hn' hbig]
        exact ih _ (chunkEmit_budget H m (clean_text b) acc hacc)
      · rw [finalLoop_cons_fit hn' hbig]
        apply ih
        rw [List.all_append, hacc, Bool.true_and]
        simp only [List.all_cons, List.all_nil, Bool.and_true]
        apply decide_eq_true
        show (tok (clean_text (clean_text b))).length ≤ m
        rw [clean_text_idem]
        omega

/-- Checker for the id sequence `clause_n, clause_(n+1), ...`. -/
def idsFrom : Nat → List ClauseRec → Bool
  | _, [] => true
  | n, r :: rs => decide (r.id = clauseId n) && idsFrom (n + 1) rs

lemma idsFrom_append :
    ∀ (l : List ClauseRec) (n : Nat) (r : ClauseRec),
      idsFrom n (l ++ [r]) =
        (idsFrom n l && decide (r.id = clauseId (n + l.length))) := by
  intro l
  induction l with
  | nil => intro n r; simp [idsFrom]
  | cons x xs ih =>
    intro n r
    rw [List.cons_append]
    simp only [idsFrom]
    rw [ih (n + 1) r, Bool.and_assoc]
    have he : n + 1 + xs.length = n + (x :: xs).length := by
      simp only [List.length_cons]; omega
    rw [he]

lemma chunkEmitF_ids (detok : List Str → Str) (m : Nat) :
    ∀ (fuel : Nat) (ts : List Str) (acc : List ClauseRec),
      idsFrom 1 acc = true → idsFrom 1 (chunkEmitF detok m fuel ts acc) = true := by
  intro fuel
  induction fuel with
  | zero =>
    intro ts acc hacc
    cases ts with
    | nil => rw [chunkEmitF_nil]; exact hacc
    | cons t tl => exact hacc
  | succ f ih =>
    intro ts acc hacc
    cases ts with
    | nil => rw [chunkEmitF_nil]; exact hacc
    | cons t tl =>
      simp only [chunkEmitF]
      apply ih
      rw [idsFrom_append, hacc, Bool.true_and]
      apply decide_eq_true
      show clauseId (acc.length + 1) = clauseId (1 + acc.length)
      rw [Nat.add_comm]

lemma finalLoop_ids (tok : Str → List Str) (detok : List Str → Str) (m : Nat) :
    ∀ (blocks : List Str) (acc : List ClauseRec),
      idsFrom 1 acc = true →
      idsFrom 1 (finalLoop tok detok m blocks acc) = true := by
  intro blocks
  induction blocks with
  | nil => intro acc hacc; rw [finalLoop_nil]; exact hacc
  | cons b rest ih =>
    intro acc hacc
    by_cases hn : isNoiseClean (clean_text b) = true
    · rw [finalLoop_cons_noise hn]; exact ih acc hacc
    · have hn' := Bool.eq_false_iff.mpr hn
      by_cases hbig : m < (tok (clean_text b)).length
      · rw [finalLoop_cons_big hn' hbig]
        exact ih _ (chunkEmitF_ids detok m _ _ acc hacc)
      · rw [finalLoop_cons_fit hn' hbig]
        apply ih
        rw [idsFrom_append, hacc, Bool.true_and]
        apply decide_eq_true
        show clauseId (acc.length + 1) = clauseId (1 + acc.length)
        rw [Nat.add_comm]

lemma finalLoop_minlen (tok : Str → List Str) (detok : List Str → Str) (m : Nat) :
    ∀ (blocks : List Str) (acc : List ClauseRec),
      blocks.all (fitsOk tok m) = true → acc.all lenOk = true →
      (finalLoop tok detok m blocks acc).all lenOk = true := by
  intro blocks
  induction blocks with
  | nil => intro acc _ hacc; rw [finalLoop_nil]; exact hacc
  | cons b rest ih =>
    intro acc hall hacc
    rw [List.all_cons] at hall
    obtain ⟨hb, hrest⟩ := Bool.and_eq_true_iff.mp hall
    by_cases hn : isNoiseClean (clean_text b) = true
    · rw [finalLoop_cons_noise hn]; exact ih acc hrest hacc
    · have hn' := Bool.eq_false_iff.mpr hn
      have hfit : (tok (clean_text b)).length ≤ m := of_decide_eq_true hb
      have hnb : ¬ m < (tok (clean_text b)).length := by omega
      rw [finalLoop_cons_fit hn' hnb]
      apply ih _ hrest
      rw [List.all_append, hacc, Bool.true_and]
      simp only [List.all_cons, List.all_nil, Bool.and_true]
      apply decide_eq_true
      show 25 ≤ (clean_text b).length
      have h1 : decide ((clean_text b).length < 25) = false := by
        unfold isNoiseClean at hn'
        have h2 := Bool.or_eq_false_iff.mp hn'
        have h3 := Bool.or_eq_false_iff.mp h2.1
        have h4 := Bool.or_eq_false_iff.mp h3.1
        have h5 := Bool.or_eq_false_iff.mp h4.1
        exact h5.1
      have := of_decide_eq_false h1
      omega

lemma finalLoop_all_noise (tok : Str → List Str) (detok : List Str → Str)
    (m : Nat) :
    ∀ (blocks : List Str) (acc : List ClauseRec),
      blocks.all isNoise = true → finalLoop tok detok m blocks acc = acc := by
  intro blocks
  induction blocks with
  | nil => intro acc _; rw [finalLoop_nil]
  | cons b rest ih =>
    intro acc hall
    rw [List.all_cons] at hall
    obtain ⟨hb, hrest⟩ := Bool.and_eq_true_iff.mp hall
    have hb' : isNoiseClean (clean_text b) = true := hb
    rw [finalLoop_cons_noise hb']
    exact ih acc hrest

/-- `elem` has a non-header source block as a suffix: the witness that an
emitted candidate always ends with the text of a non-header block. -/
def srcOf (blocks : List Str) (elem : Str) : Bool :=
  blocks.any (fun b => !headerMatch (pyStrip b) && (pyStrip b).isSuffixOf elem)

lemma headerFold_mem :
    ∀ (blocks : List Str) (hdr : Str) (out : List Str) (elem : Str),
      elem ∈ headerFold blocks hdr out →
      elem ∈ out ∨ srcOf blocks elem = true := by
  intro blocks
  induction blocks with
  | nil =>
    intro hdr out elem h
    left
    simpa [headerFold] using h
  | cons b rest ih =>
    intro hdr out elem h
    by_cases hm : headerMatch (pyStrip b) = true
    · rw [show headerFold (b :: rest) hdr out = headerFold rest (pyStrip b) out
          by simp [headerFold, hm]] at h
      rcases ih _ _ _ h with h1 | h2
      · left; exact h1
      · right
        rw [srcOf, List.any_cons]
        rw [srcOf] at h2
        rw [h2, Bool.or_true]
    · have hm' := Bool.eq_false_iff.mpr hm
      rw [show headerFold (b :: rest) hdr out =
            headerFold rest []
              (out ++ [if hdr = [] then pyStrip b else hdr ++ '\n' :: pyStrip b])
          by simp [headerFold, hm']] at h
      rcases ih _ _ _ h with h1 | h2
      · rcases List.mem_append.mp h1 with h3 | h3
        · left; exact h3
        · right
          have he : elem = if hdr = [] then pyStrip b else hdr ++ '\n' :: pyStrip b := by
            simpa using h3
          rw [srcOf, List.any_cons]
          have hsfx : (pyStrip b).isSuffixOf elem = true := by
            rw [List.isSuffixOf_iff_suffix]
            rw [he]
            by_cases hh : hdr = []
            · rw [if_pos hh]
            · rw [if_neg hh]
              exact ⟨hdr ++ ['\n'], by rw [List.append_assoc]; rfl⟩
          rw [hm', hsfx]
          simp
      · right
        rw [srcOf, List.any_cons]
        rw [srcOf] at h2
        rw [h2, Bool.or_true]

lemma accumBlocks_single (tok : Str → List Str) (m : Nat) (s : Str)
    (h : s ≠ []) : accumBlocks tok m [s] [] [] = [pyStrip s] := by
  by_cases htk : (tok s).length ≤ m
  · simp [accumBlocks, htk, h]
  · simp [accumBlocks, htk, h]

lemma split_empty (tok : Str → List Str) (detok : List Str → Str) (m : Nat) :
    split_into_clauses tok detok m [] = [] := by
  unfold split_into_clauses combinedOf blocksOf
  have hp : preprocess ([] : Str) = [] := rfl
  rw [hp]
  have hs : sentSplit ([] : Str) = [[]] := rfl
  rw [hs]
  by_cases htk : (tok []).length ≤ m <;>
    simp [accumBlocks, htk, headerFold, finalLoop]

/-- When the preprocessed input is a single sentence, the whole pipeline
reduces to header folding and filtering of that one block. -/
lemma split_single (tok : Str → List Str) (detok : List Str → Str) (m : Nat)
    (X : Str) (h1 : sentSplit (preprocess X) = [X]) (h2 : X ≠ []) :
    split_into_clauses tok detok m X =
      finalLoop tok detok m (headerFold [pyStrip X] [] []) [] := by
  unfold split_into_clauses combinedOf blocksOf
  rw [h1, accumBlocks_single tok m X h2]

/-! ### Idempotence of `str.strip()` and the alternate extractor -/

lemma pyStrip_nil : pyStrip ([] : Str) = [] := rfl

lemma pyStrip_idem (cs : Str) : pyStrip (pyStrip cs) = pyStrip cs := by
  by_cases hy : pyStrip cs = []
  · rw [hy, pyStrip_nil]
  · have h1 : (pyStrip cs).dropWhile isPySpace = pyStrip cs := by
      apply dropWhile_eq_self
      intro c hc
      obtain ⟨t, ht⟩ := pyStrip_prefix_dropWhile cs
      have hh : (cs.dropWhile isPySpace).head? = some c := by
        rw [← ht, head?_append_left hy, hc]
      exact dropWhile_head_not hh
    have h2 : (pyStrip cs).reverse =
        (cs.dropWhile isPySpace).reverse.dropWhile isPySpace := by
      unfold pyStrip
      rw [List.reverse_reverse]
    have h3 : ((cs.dropWhile isPySpace).reverse.dropWhile isPySpace).dropWhile
        isPySpace = (cs.dropWhile isPySpace).reverse.dropWhile isPySpace := by
      apply dropWhile_eq_self
      intro c hc
      exact dropWhile_head_not hc
    show (((pyStrip cs).dropWhile isPySpace).reverse.dropWhile isPySpace).reverse
        = pyStrip cs
    rw [h1, h2, h3, ← h2, List.reverse_reverse]

/-- The property C10 states of each returned clause string: length strictly
over 50 and equal to its own trim. -/
def strippedLongOk (c : Str) : Bool :=
  decide (50 < c.length) && decide (pyStrip c = c)

/-! ### Unfolding equations for the force-split loop -/

lemma chunkEmit_nil (detok : List Str → Str) (m : Nat) (acc : List ClauseRec) :
    chunkEmit detok m [] acc = acc := rfl

lemma chunkEmitF_fuel_eq (detok : List Str → Str) (m : Nat) (hm : 1 ≤ m) :
    ∀ (f₁ : Nat) (ts : List Str) (acc : List ClauseRec) (f₂ : Nat),
      ts.length ≤ f₁ → ts.length ≤ f₂ →
      chunkEmitF detok m f₁ ts acc = chunkEmitF detok m f₂ ts acc := by
  intro f₁
  induction f₁ with
  | zero =>
    intro ts acc f₂ hl _
    have hts : ts = [] := List.eq_nil_of_length_eq_zero (Nat.le_zero.mp hl)
    subst hts
    rw [chunkEmitF_nil, chunkEmitF_nil]
  | succ f ih =>
    intro ts acc f₂ hl1 hl2
    cases ts with
    | nil => rw [chunkEmitF_nil, chunkEmitF_nil]
    | cons t tl =>
      cases f₂ with
      | zero => simp at hl2
      | succ g =>
        simp only [chunkEmitF]
        apply ih
        · rw [List.length_drop]
          simp only [List.length_cons] at hl1 ⊢
          omega
        · rw [List.length_drop]
          simp only [List.length_cons] at hl2 ⊢
          omega

lemma chunkEmit_step (detok : List Str → Str) (m : Nat) (hm : 1 ≤ m)
    (ts : List Str) (acc : List ClauseRec) (h : ts ≠ []) :
    chunkEmit detok m ts acc =
      chunkEmit detok m (ts.drop m)
        (acc ++ [⟨clean_text (detok (ts.take m)), clauseId (acc.length + 1)⟩]) := by
  cases ts with
  | nil => exact absurd rfl h
  | cons t tl =>
    unfold chunkEmit
    simp only [List.length_cons, chunkEmitF]
    apply chunkEmitF_fuel_eq detok m hm
    · rw [List.length_drop]
      simp only [List.length_cons]
      omega
    · exact Nat.le_refl _

lemma split_single_noise (tok : Str → List Str) (detok : List Str → Str)
    (m : Nat) (X : Str) (h1 : sentSplit (preprocess X) = [X]) (h2 : X ≠ [])
    (h3 : headerMatch (pyStrip (pyStrip X)) = false)
    (h4 : isNoiseClean (clean_text (pyStrip (pyStrip X))) = true) :
    split_into_clauses tok detok m X = [] := by
  rw [split_single tok detok m X h1 h2]
  rw [show headerFold [pyStrip X] [] [] = [pyStrip (pyStrip X)] by
    simp [headerFold, h3]]
  rw [finalLoop_cons_noise h4, finalLoop_nil]

lemma split_single_header (tok : Str → List Str) (detok : List Str → Str)
    (m : Nat) (X : Str) (h1 : sentSplit (preprocess X) = [X]) (h2 : X ≠ [])
    (h3 : headerMatch (pyStrip (pyStrip X)) = true) :
    split_into_clauses tok detok m X = [] := by
  rw [split_single tok detok m X h1 h2]
  rw [show headerFold [pyStrip X] [] [] = [] by simp [headerFold, h3]]
  rw [finalLoop_nil]

/-- The input of the spec's header-folding example. -/
def exC5 : Str :=
  ("Section 2 General Terms\nThis clause explains general terms and " ++
   "conditions that apply broadly to all policyholders under this " ++
   "agreement.").data

/-! ### The claims -/

/-- Claim C7: the normalizer `clean_text` is idempotent, and its output has
every maximal whitespace run (non-breaking spaces included) collapsed to a
single ASCII space, with no leading or trailing whitespace. -/
theorem c7_clean_text_idempotent (s : Str) :
    clean_text (clean_text s) = clean_text s ∧ isNormalized (clean_text s) :=
  ⟨clean_text_idem s, clean_text_normalized s⟩

/-- Claim C1: with the tokenization oracle passed as a parameter (assumed
calibrated, `sliceBound`) and `max_tokens = 512`, every record emitted by
`split_into_clauses` satisfies
`token_count(normalize(record.clause)) ≤ 512`, in both the direct-emit and
the force-split branch. -/
theorem c1_token_budget (tok : Str → List Str) (detok : List Str → Str)
    (text : Str) (H : sliceBound tok detok) :
    (split_into_clauses tok detok 512 text).all (budgetOk tok 512) = true := by
  unfold split_into_clauses
  exact finalLoop_budget H 512 _ [] rfl

theorem c1_token_budget_witness :
    (split_into_clauses charTok charDetok 512
      "This clause explains the general terms of the policy.".data).all
      (budgetOk charTok 512) = true :=
  c1_token_budget charTok charDetok
    ("This clause explains the general terms of the policy.".data)
    charTok_sliceBound

set_option maxRecDepth 100000 in
/-- Claim C2 as stated is false: the force-split branch re-checks no length,
so with the character-level oracle and budget 512 a 513-character block
produces a final records list containing a 1-character clause. -/
theorem c2_min_length_counterexample :
    ((split_into_clauses charTok charDetok 512
        (List.replicate 513 'a')).all lenOk) = false := by decide

/-- Claim C2 (amended): when every surviving candidate block fits the token
budget — so the force-split branch is never taken — every emitted record's
clause text has at least 25 characters.  (A force-split chunk may be
shorter, as the counterexample shows.) -/
theorem c2_min_length_amended (tok : Str → List Str) (detok : List Str → Str)
    (m : Nat) (text : Str)
    (h : (combinedOf tok m text).all (fitsOk tok m) = true) :
    (split_into_clauses tok detok m text).all lenOk = true := by
  unfold split_into_clauses
  exact finalLoop_minlen tok detok m _ [] h rfl

theorem c2_min_length_amended_witness :
    (split_into_clauses charTok charDetok 512
      "This clause explains the general terms of the policy.".data).all
      lenOk = true :=
  c2_min_length_amended charTok charDetok 512
    ("This clause explains the general terms of the policy.".data) (by decide)

/-- Claim C3: the ids of the emitted records are exactly
`clause_1, clause_2, ...` in output order — 1-indexed, strictly increasing,
no gaps or repeats, globally sequential across force-split chunks. -/
theorem c3_ids_sequential (tok : Str → List Str) (detok : List Str → Str)
    (m : Nat) (text : Str) :
    idsFrom 1 (split_into_clauses tok detok m text) = true := by
  unfold split_into_clauses
  exact finalLoop_ids tok detok m _ [] rfl

/-- Claim C4: if the pipeline's single surviving candidate block tokenizes
to `max_tokens * 2 + 10` tokens (and the block passed the noise filter, with
`max_tokens ≥ 10` so that three chunks suffice, and a calibrated oracle),
`split_into_clauses` emits exactly 3 records — the cleaned detokenizations
of the three token slices, with ids `clause_1..clause_3` — each within the
token budget, and the concatenation of the detokenized slices normalizes
back to the normalized block. -/
theorem c4_oversized_block (tok : Str → List Str) (detok : List Str → Str)
    (m : Nat) (text : Str) (b : Str)
    (hcomb : combinedOf tok m text = [b])
    (hnoise : isNoiseClean (clean_text b) = false)
    (hlen : (tok (clean_text b)).length = 2 * m + 10)
    (hm : 10 ≤ m)
    (H : sliceBound tok detok)
    (hdetok : ∀ a c : List Str, detok (a ++ c) = detok a ++ detok c)
    (hrt : ∀ s : Str, clean_text (detok (tok s)) = clean_text s) :
    split_into_clauses tok detok m text =
      [⟨clean_text (detok ((tok (clean_text b)).take m)), clauseId 1⟩,
       ⟨clean_text (detok (((tok (clean_text b)).drop m).take m)), clauseId 2⟩,
       ⟨clean_text (detok (((tok (clean_text b)).drop m).drop m)), clauseId 3⟩] ∧
    (split_into_clauses tok detok m text).all (budgetOk tok m) = true ∧
    clean_text (detok ((tok (clean_text b)).take m) ++
      (detok (((tok (clean_text b)).drop m).take m) ++
       detok (((tok (clean_text b)).drop m).drop m))) = clean_text b := by
  have hm1 : 1 ≤ m := by omega
  have hbig : m < (tok (clean_text b)).length := by omega
  have hsplit : split_into_clauses tok detok m text =
      chunkEmit detok m (tok (clean_text b)) [] := by
    unfold split_into_clauses
    rw [hcomb, finalLoop_cons_big hnoise hbig, finalLoop_nil]
  refine ⟨?_, ?_, ?_⟩
  · rw [hsplit]
    have l1 : tok (clean_text b) ≠ [] := by
      intro he
      rw [he] at hlen
      simp only [List.length_nil] at hlen
      omega
    rw [chunkEmit_step detok m hm1 _ [] l1]
    have hlen2 : ((tok (clean_text b)).drop m).length = m + 10 := by
      rw [List.length_drop, hlen]; omega
    have l2 : (tok (clean_text b)).drop m ≠ [] := by
      intro he
      rw [he] at hlen2
      simp only [List.length_nil] at hlen2
      omega
    rw [chunkEmit_step detok m hm1 _ _ l2]
    have hlen3 : (((tok (clean_text b)).drop m).drop m).length = 10 := by
      rw [List.length_drop, hlen2]; omega
    have l3 : ((tok (clean_text b)).drop m).drop m ≠ [] := by
      intro he
      rw [he] at hlen3
      simp only [List.length_nil] at hlen3
      omega
    rw [chunkEmit_step detok m hm1 _ _ l3]
    have l4 : (((tok (clean_text b)).drop m).drop m).drop m = [] :=
      List.drop_eq_nil_of_le (by rw [hlen3]; omega)
    rw [l4, chunkEmit_nil]
    rw [List.take_of_length_le
      (show (((tok (clean_text b)).drop m).drop m).length ≤ m by
        rw [hlen3]; omega)]
    simp
  · unfold split_into_clauses
    exact finalLoop_budget H m _ [] rfl
  · rw [← hdetok, ← hdetok, List.take_append_drop, List.take_append_drop,
      hrt, clean_text_idem]

theorem c4_oversized_block_witness :
    split_into_clauses charTok charDetok 10
        "the policy covers water damage".data =
      [⟨clean_text (charDetok ((charTok
          (clean_text "the policy covers water damage".data)).take 10)),
        clauseId 1⟩,
       ⟨clean_text (charDetok (((charTok
          (clean_text "the policy covers water damage".data)).drop 10).take 10)),
        clauseId 2⟩,
       ⟨clean_text (charDetok (((charTok
          (clean_text "the policy covers water damage".data)).drop 10).drop 10)),
        clauseId 3⟩] ∧
    (split_into_clauses charTok charDetok 10
        "the policy covers water damage".data).all (budgetOk charTok 10) = true ∧
    clean_text (charDetok ((charTok
        (clean_text "the policy covers water damage".data)).take 10) ++
      (charDetok (((charTok
        (clean_text "the policy covers water damage".data)).drop 10).take 10) ++
       charDetok (((charTok
        (clean_text "the policy covers water damage".data)).drop 10).drop 10))) =
      clean_text "the policy covers water damage".data :=
  c4_oversized_block charTok charDetok 10
    ("the policy covers water damage".data)
    ("the policy covers water damage".data)
    (by decide) (by decide) (by decide) (by decide)
    charTok_sliceBound charDetok_append (fun s => by rw [charDetok_charTok])

set_option maxRecDepth 40000 in
/-- Claim C5's example is false as stated: on the quoted input the code
emits no record at all, not one.  The sentence splitter does not split at
the newline, so header line and body form a single block; that block itself
matches the header pattern `^(Section\s+\d+|...)`, becomes the pending
header, and — having no following non-header block — is dropped. -/
theorem c5_counterexample :
    split_into_clauses charTok charDetok 512 exC5 = [] := by decide

/-- Claim C5 (amended): a block matching the header pattern is never emitted
as its own clause — every emitted candidate ends with (has as a suffix) the
stripped text of some non-header block, to which any pending header was
prepended newline-joined; on the example input, however, the code emits no
record at all, because the newline does not create a block boundary: the
whole input is one block which itself matches the header pattern and is
dropped as a trailing header. -/
theorem c5_header_folding_amended (tok : Str → List Str)
    (detok : List Str → Str) (m : Nat) (blocks : List Str) (elem : Str)
    (h : elem ∈ headerFold blocks [] []) :
    srcOf blocks elem = true ∧ split_into_clauses tok detok m exC5 = [] := by
  constructor
  · rcases headerFold_mem blocks [] [] elem h with h1 | h2
    · exact absurd h1 (List.not_mem_nil elem)
    · exact h2
  · exact split_single_header tok detok m exC5 (by decide) (by decide) (by decide)

theorem c5_header_folding_amended_witness :
    srcOf ["The policy covers fire damage to the insured home.".data]
        "The policy covers fire damage to the insured home.".data = true ∧
    split_into_clauses charTok charDetok 512 exC5 = [] :=
  c5_header_folding_amended charTok charDetok 512
    ["The policy covers fire damage to the insured home.".data]
    ("The policy covers fire damage to the insured home.".data)
    (by decide)

/-- Claim C6: for each of the inputs "Page 1", "TOC", "42" and an all-caps
3-word heading, `split_into_clauses` returns the empty record sequence. -/
theorem c6_noise_exclusion (tok : Str → List Str) (detok : List Str → Str)
    (m : Nat) :
    split_into_clauses tok detok m "Page 1".data = [] ∧
    split_into_clauses tok detok m "TOC".data = [] ∧
    split_into_clauses tok detok m "42".data = [] ∧
    split_into_clauses tok detok m "GENERAL TERMS SECTION".data = [] :=
  ⟨split_single_noise tok detok m _ (by decide) (by decide) (by decide) (by decide),
   split_single_noise tok detok m _ (by decide) (by decide) (by decide) (by decide),
   split_single_noise tok detok m _ (by decide) (by decide) (by decide) (by decide),
   split_single_noise tok detok m _ (by decide) (by decide) (by decide) (by decide)⟩

/-- Claim C8: a zero-length input, or an input all of whose candidate blocks
are removed by the noise filters, yields the empty record sequence — the
segmenter is a total function and this is a valid terminal outcome, not an
error. -/
theorem c8_empty_and_filtered (tok : Str → List Str) (detok : List Str → Str)
    (m : Nat) (text : Str)
    (h : (combinedOf tok m text).all isNoise = true) :
    split_into_clauses tok detok m [] = [] ∧
    split_into_clauses tok detok m text = [] := by
  refine ⟨split_empty tok detok m, ?_⟩
  unfold split_into_clauses
  exact finalLoop_all_noise tok detok m _ [] h

theorem c8_empty_and_filtered_witness :
    split_into_clauses charTok charDetok 512 [] = [] ∧
    split_into_clauses charTok charDetok 512 "TOC".data = [] :=
  c8_empty_and_filtered charTok charDetok 512 ("TOC".data) (by decide)

/-- Claim C9: the segmenter is deterministic — two runs with oracles of
identical observable behavior produce identical record sequences (same
records, same ids, same order); the computation is pure, with no other
source of variation. -/
theorem c9_deterministic (tok₁ tok₂ : Str → List Str)
    (detok₁ detok₂ : List Str → Str) (m : Nat) (text : Str)
    (ht : ∀ s, tok₁ s = tok₂ s) (hd : ∀ ts, detok₁ ts = detok₂ ts) :
    split_into_clauses tok₁ detok₁ m text =
      split_into_clauses tok₂ detok₂ m text := by
  have h1 : tok₁ = tok₂ := funext ht
  have h2 : detok₁ = detok₂ := funext hd
  rw [h1, h2]

theorem c9_deterministic_witness :
    split_into_clauses charTok charDetok 512 "TOC".data =
      split_into_clauses charTok charDetok 512 "TOC".data :=
  c9_deterministic charTok charTok charDetok charDetok 512 ("TOC".data)
    (fun _ => rfl) (fun _ => rfl)

/-- Claim C10: every string in the list returned by the alternate
extractor's line filter (`my_utils.extract_clauses_from_url`, lines 27-30)
has length strictly greater than 50 and equals its own whitespace trim; the
records are bare strings (return type `List Str`), with no ids. -/
theorem c10_alt_extractor (cleaned : Str) :
    (extract_clauses_from_text cleaned).all strippedLongOk = true := by
  rw [List.all_eq_true]
  intro x hx
  unfold extract_clauses_from_text at hx
  rcases List.mem_filterMap.mp hx with ⟨l, _, hif⟩
  by_cases hc : 50 < (pyStrip l).length
  · rw [if_pos hc] at hif
    have hx' : x = pyStrip l := (Option.some.injEq _ _).mp hif.symm
    subst hx'
    unfold strippedLongOk
    rw [Bool.and_eq_true_iff]
    exact ⟨decide_eq_true hc, decide_eq_true (pyStrip_idem l)⟩
  · rw [if_neg hc] at hif
    exact absurd hif (Option.noConfusion)
